import Mathlib

/-!
Verification of the `ironsort` quicksort library (`src/lib.rs`).

The two entry points `quicksort` and `quicksort_by` are embedded as Lean
functions over `List α`.  The partition loop of `quicksort_by` can fail to
terminate for comparators that are not strict weak orderings, and the
`right -= 1` step can underflow `usize` (a panic), so the embedding threads
an explicit fuel counter and returns `Option (Option _)`:

* `none`            — the fuel ran out (the modelled run was cut short);
* `some none`       — the Rust code panics (usize underflow / out-of-bounds);
* `some (some v)`   — the Rust function returns normally, leaving slice `v`.
-/

namespace Ironsort

/-- Embedding of Rust's slice `swap`: exchange the elements at indices `i`
and `j`; identity when an index is out of range (all call sites are in
range). -/
def listSwap {α : Type} (v : List α) (i j : Nat) : List α :=
  match v[i]?, v[j]? with
  | some a, some b => (v.set i b).set j a
  | _, _ => v

/-- Inner loop of the left cursor, running over the suffix of the slice that
starts at index `left`: Rust's
`while left < len && cmp(&vec[left], &vec[pivot]) != Ordering::Greater { left += 1 }`
(during the scan the slice, and hence `vec[pivot]`, is unchanged, so the
pivot value is passed as `p`). -/
def advanceLeft {α : Type} (cmp : α → α → Ordering) (p : α) : List α → Nat → Nat
  | [], left => left
  | a :: rest, left =>
    if cmp a p ≠ Ordering.gt then advanceLeft cmp p rest (left + 1) else left

/-- The left cursor scan of `quicksort_by`, starting from index `left` of
slice `v`, against pivot value `p`. -/
def findLeft {α : Type} (cmp : α → α → Ordering) (p : α) (v : List α) (left : Nat) : Nat :=
  advanceLeft cmp p (v.drop left) left

/-- The right cursor scan of `quicksort_by`:
`while cmp(&vec[right], &vec[pivot]) == Ordering::Greater { right -= 1 }`.
Returns `none` when the Rust code panics: decrementing `right : usize`
below zero, or indexing out of bounds. -/
def findRight {α : Type} (cmp : α → α → Ordering) (p : α) (v : List α) : Nat → Option Nat
  | 0 =>
    match v[0]? with
    | none => none
    | some a => if cmp a p = Ordering.gt then none else some 0
  | right + 1 =>
    match v[right + 1]? with
    | none => none
    | some a =>
      if cmp a p = Ordering.gt then findRight cmp p v right else some (right + 1)

/-- The outer cursor loop `while left < right { ... }` of `quicksort_by`.
Each iteration re-reads the pivot value `vec[pivot] = vec[0]`, runs both
cursor scans, and swaps an out-of-place pair.  Returns the slice and the
final value of `right`.  One unit of fuel is spent per iteration. -/
def partLoop {α : Type} (cmp : α → α → Ordering) :
    Nat → List α → Nat → Nat → Option (Option (List α × Nat))
  | 0, _, _, _ => none
  | fuel + 1, v, left, right =>
    if left < right then
      match v[0]? with
      | none => some none
      | some p =>
        let l := findLeft cmp p v left
        match findRight cmp p v right with
        | none => some none
        | some r =>
          if l < r then partLoop cmp fuel (listSwap v l r) l r
          else some (some (v, r))
    else some (some (v, right))

/-- The whole partition phase of `quicksort_by` on a slice of length ≥ 2:
`vec.swap(pivot, len / 2)`, the cursor loop, and the final
`vec.swap(pivot, right)`.  Returns the rearranged slice together with the
final `right` index (the pivot position). -/
def partitionStep {α : Type} (cmp : α → α → Ordering) (fuel : Nat) (v : List α) :
    Option (Option (List α × Nat)) :=
  match partLoop cmp fuel (listSwap v 0 (v.length / 2)) 0 (v.length - 1) with
  | none => none
  | some none => some none
  | some (some (w, r)) => some (some (listSwap w 0 r, r))

/-- Embedding of `quicksort_by`: base case for `len <= 1`, then the
partition phase followed by the two recursive calls on `vec[0..right]` and
`vec[right+1..]`.  The sub-results are reassembled around the pivot element
`vec[right]`. -/
def quicksortBy {α : Type} (cmp : α → α → Ordering) : Nat → List α → Option (Option (List α))
  | 0, _ => none
  | fuel + 1, v =>
    if v.length ≤ 1 then some (some v)
    else
      match partitionStep cmp fuel v with
      | none => none
      | some none => some none
      | some (some (w, r)) =>
        match quicksortBy cmp fuel (w.take r) with
        | none => none
        | some none => some none
        | some (some sL) =>
          match quicksortBy cmp fuel (w.drop (r + 1)) with
          | none => none
          | some none => some none
          | some (some sR) => some (some (sL ++ (w.drop r).take 1 ++ sR))

/-- Embedding of `quicksort`: `quicksort_by(vec, &|x, y| x.cmp(y))`, the
natural three-way comparison of the element type. -/
def quicksort {α : Type} [Ord α] (fuel : Nat) (v : List α) : Option (Option (List α)) :=
  quicksortBy (fun x y => compare x y) fuel v

/-- A comparator is oriented when swapping its arguments swaps the verdict
(consistency of a three-way comparison). -/
def Oriented {α : Type} (cmp : α → α → Ordering) : Prop :=
  ∀ x y, cmp x y = (cmp y x).swap

/-- Transitivity of the reflexive relation `cmp x y ≠ Greater` induced by a
three-way comparator. -/
def LeTrans {α : Type} (cmp : α → α → Ordering) : Prop :=
  ∀ x y z, cmp x y ≠ Ordering.gt → cmp y z ≠ Ordering.gt → cmp x z ≠ Ordering.gt

/-- A strict weak ordering presented as a three-way comparator: oriented and
transitive. -/
def SWOrder {α : Type} (cmp : α → α → Ordering) : Prop :=
  Oriented cmp ∧ LeTrans cmp

/-- All indices below `n` hold elements that do not compare Greater than
`p`. -/
def belowAll {α : Type} (cmp : α → α → Ordering) (p : α) (v : List α) (n : Nat) : Prop :=
  ∀ i, i < n → ∀ x, v[i]? = some x → cmp x p ≠ Ordering.gt

/-- All indices above `n` hold elements that compare Greater than `p`. -/
def aboveAll {α : Type} (cmp : α → α → Ordering) (p : α) (v : List α) (n : Nat) : Prop :=
  ∀ i, n < i → ∀ x, v[i]? = some x → cmp x p = Ordering.gt

/-- One when the element at index `i` compares Greater than `p`, zero
otherwise; the low bit of the termination measure of the cursor loop. -/
def gtBit {α : Type} (cmp : α → α → Ordering) (p : α) (v : List α) (i : Nat) : Nat :=
  match v[i]? with
  | some a => if cmp a p = Ordering.gt then 1 else 0
  | none => 0

/-! ### Lemmas about `listSwap` -/

theorem listSwap_length {α : Type} (v : List α) (i j : Nat) :
    (listSwap v i j).length = v.length := by
  cases h1 : v[i]? <;> cases h2 : v[j]? <;> simp [listSwap, h1, h2]

theorem cons_set_perm {α : Type} : ∀ (t : List α) (j : Nat) (b c : α),
    t[j]? = some b → (b :: t.set j c).Perm (c :: t)
  | [], j, b, c, h => by simp at h
  | d :: t, 0, b, c, h => by
    simp only [List.getElem?_cons_zero, Option.some.injEq] at h
    subst h
    exact List.Perm.swap c d t
  | d :: t, j + 1, b, c, h => by
    simp only [List.getElem?_cons_succ] at h
    exact ((List.Perm.swap d b _).trans
      ((cons_set_perm t j b c h).cons d)).trans (List.Perm.swap c d t)

theorem set_set_perm {α : Type} : ∀ (v : List α) (i j : Nat) (a b : α),
    v[i]? = some a → v[j]? = some b → ((v.set i b).set j a).Perm v
  | [], _, _, _, _, h1, _ => by simp at h1
  | c :: t, 0, 0, a, b, h1, h2 => by
    simp only [List.getElem?_cons_zero, Option.some.injEq] at h1 h2
    subst h1
    simp
  | c :: t, 0, j + 1, a, b, h1, h2 => by
    simp only [List.getElem?_cons_zero, List.getElem?_cons_succ, Option.some.injEq] at h1 h2
    subst h1
    exact cons_set_perm t j b c h2
  | c :: t, i + 1, 0, a, b, h1, h2 => by
    simp only [List.getElem?_cons_zero, List.getElem?_cons_succ, Option.some.injEq] at h1 h2
    subst h2
    exact cons_set_perm t i a c h1
  | c :: t, i + 1, j + 1, a, b, h1, h2 => by
    simp only [List.getElem?_cons_succ] at h1 h2
    exact (set_set_perm t i j a b h1 h2).cons c

theorem listSwap_perm {α : Type} (v : List α) (i j : Nat) : (listSwap v i j).Perm v := by
  unfold listSwap
  cases h1 : v[i]? with
  | none => exact List.Perm.refl v
  | some a =>
    cases h2 : v[j]? with
    | none => exact List.Perm.refl v
    | some b => exact set_set_perm v i j a b h1 h2

theorem listSwap_getElem? {α : Type} (v : List α) (i j k : Nat)
    (hi : i < v.length) (hj : j < v.length) :
    (listSwap v i j)[k]? = if k = j then v[i]? else if k = i then v[j]? else v[k]? := by
  have h1 : v[i]? = some (v.get ⟨i, hi⟩) := List.getElem?_eq_getElem hi
  have h2 : v[j]? = some (v.get ⟨j, hj⟩) := List.getElem?_eq_getElem hj
  unfold listSwap
  rw [h1, h2]
  rw [List.getElem?_set, List.getElem?_set]
  simp only [List.length_set]
  by_cases hkj : k = j
  · simp [hkj, hj, h1.symm]
  · by_cases hki : k = i
    · subst hki
      rw [if_neg (fun h => hkj h.symm), if_pos rfl, if_pos hi, if_neg hkj, if_pos rfl]
    · simp [hkj, hki, Ne.symm hkj, Ne.symm hki]

/-! ### Lemmas about the left cursor scan -/

theorem advanceLeft_ge {α : Type} (cmp : α → α → Ordering) (p : α) :
    ∀ (ys : List α) (left : Nat), left ≤ advanceLeft cmp p ys left
  | [], left => Nat.le_refl left
  | a :: rest, left => by
    unfold advanceLeft
    split
    · exact Nat.le_trans (Nat.le_succ left) (advanceLeft_ge cmp p rest (left + 1))
    · exact Nat.le_refl left

theorem advanceLeft_le {α : Type} (cmp : α → α → Ordering) (p : α) :
    ∀ (ys : List α) (left : Nat), advanceLeft cmp p ys left ≤ left + ys.length
  | [], left => Nat.le_refl left
  | a :: rest, left => by
    unfold advanceLeft
    split
    · have := advanceLeft_le cmp p rest (left + 1)
      simpa [Nat.add_comm, Nat.add_assoc, Nat.add_left_comm] using this
    · exact Nat.le_add_right left _

theorem findLeft_ge {α : Type} (cmp : α → α → Ordering) (p : α) (v : List α) (left : Nat) :
    left ≤ findLeft cmp p v left :=
  advanceLeft_ge cmp p (v.drop left) left

theorem findLeft_le {α : Type} (cmp : α → α → Ordering) (p : α) (v : List α) (left : Nat)
    (h : left ≤ v.length) : findLeft cmp p v left ≤ v.length := by
  have h2 := advanceLeft_le cmp p (v.drop left) left
  rw [List.length_drop] at h2
  unfold findLeft
  omega

theorem findLeft_ge_len {α : Type} (cmp : α → α → Ordering) (p : α) (v : List α) (left : Nat)
    (h : v.length ≤ left) : findLeft cmp p v left = left := by
  unfold findLeft
  rw [List.drop_eq_nil_of_le h]
  rfl

theorem findLeft_lt_len {α : Type} (cmp : α → α → Ordering) (p : α) (v : List α) (left : Nat)
    (h : left < v.length) :
    findLeft cmp p v left =
      if cmp (v.get ⟨left, h⟩) p ≠ Ordering.gt then findLeft cmp p v (left + 1) else left := by
  unfold findLeft
  rw [List.drop_eq_getElem_cons h]
  rfl

theorem findLeft_below {α : Type} (cmp : α → α → Ordering) (p : α) (v : List α) :
    ∀ (n left : Nat), v.length - left ≤ n →
      ∀ i, left ≤ i → i < findLeft cmp p v left →
        ∀ x, v[i]? = some x → cmp x p ≠ Ordering.gt := by
  intro n
  induction n with
  | zero =>
    intro left hn i h1 h2 x hx
    rw [findLeft_ge_len cmp p v left (by omega)] at h2
    omega
  | succ n ih =>
    intro left hn i h1 h2 x hx
    by_cases hl : left < v.length
    · rw [findLeft_lt_len cmp p v left hl] at h2
      split at h2
      · next hcmp =>
        rcases Nat.eq_or_lt_of_le h1 with heq | hlt
        · subst heq
          rw [List.getElem?_eq_getElem hl] at hx
          cases hx
          exact hcmp
        · exact ih (left + 1) (by omega) i hlt h2 x hx
      · omega
    · rw [findLeft_ge_len cmp p v left (by omega)] at h2
      omega

theorem findLeft_stop {α : Type} (cmp : α → α → Ordering) (p : α) (v : List α) :
    ∀ (n left : Nat), v.length - left ≤ n →
      ∀ x, v[findLeft cmp p v left]? = some x → cmp x p = Ordering.gt := by
  intro n
  induction n with
  | zero =>
    intro left hn x hx
    rw [findLeft_ge_len cmp p v left (by omega)] at hx
    have : left < v.length := (List.getElem?_eq_some_iff.mp hx).1
    omega
  | succ n ih =>
    intro left hn x hx
    by_cases hl : left < v.length
    · rw [findLeft_lt_len cmp p v left hl] at hx
      split at hx
      · next hcmp =>
        exact ih (left + 1) (by omega) x hx
      · next hcmp =>
        rw [List.getElem?_eq_getElem hl] at hx
        cases hx
        exact Decidable.not_not.mp hcmp
    · rw [findLeft_ge_len cmp p v left (by omega)] at hx
      have : left < v.length := (List.getElem?_eq_some_iff.mp hx).1
      omega

theorem findLeft_pos {α : Type} (cmp : α → α → Ordering) (p : α) (v : List α)
    (h0 : v[0]? = some p) (hp : cmp p p ≠ Ordering.gt) : 1 ≤ findLeft cmp p v 0 := by
  have hlen : 0 < v.length := (List.getElem?_eq_some_iff.mp h0).1
  rw [findLeft_lt_len cmp p v 0 hlen]
  have : v.get ⟨0, hlen⟩ = p := by
    rw [List.getElem?_eq_getElem hlen] at h0
    exact Option.some.inj h0
  rw [this, if_pos hp]
  exact findLeft_ge cmp p v 1

/-! ### Lemmas about the right cursor scan -/

theorem findRight_le {α : Type} (cmp : α → α → Ordering) (p : α) (v : List α) :
    ∀ (right r : Nat), findRight cmp p v right = some r → r ≤ right := by
  intro right
  induction right with
  | zero =>
    intro r h
    cases h0 : v[0]? with
    | none => simp only [findRight, h0] at h; cases h
    | some a =>
      simp only [findRight, h0] at h
      split at h
      · cases h
      · cases h; exact Nat.le_refl 0
  | succ right ih =>
    intro r h
    cases h0 : v[right + 1]? with
    | none => simp only [findRight, h0] at h; cases h
    | some a =>
      simp only [findRight, h0] at h
      split at h
      · exact Nat.le_trans (ih r h) (Nat.le_succ right)
      · cases h; exact Nat.le_refl _

theorem findRight_stop {α : Type} (cmp : α → α → Ordering) (p : α) (v : List α) :
    ∀ (right r : Nat), findRight cmp p v right = some r →
      ∃ x, v[r]? = some x ∧ cmp x p ≠ Ordering.gt := by
  intro right
  induction right with
  | zero =>
    intro r h
    cases h0 : v[0]? with
    | none => simp only [findRight, h0] at h; cases h
    | some a =>
      simp only [findRight, h0] at h
      split at h
      · cases h
      · next hcmp => cases h; exact ⟨a, h0, hcmp⟩
  | succ right ih =>
    intro r h
    cases h0 : v[right + 1]? with
    | none => simp only [findRight, h0] at h; cases h
    | some a =>
      simp only [findRight, h0] at h
      split at h
      · exact ih r h
      · next hcmp => cases h; exact ⟨a, h0, hcmp⟩

theorem findRight_lt_len {α : Type} (cmp : α → α → Ordering) (p : α) (v : List α)
    (right r : Nat) (h : findRight cmp p v right = some r) : r < v.length := by
  obtain ⟨x, hx, -⟩ := findRight_stop cmp p v right r h
  exact (List.getElem?_eq_some_iff.mp hx).1

theorem findRight_above {α : Type} (cmp : α → α → Ordering) (p : α) (v : List α) :
    ∀ (right r : Nat), findRight cmp p v right = some r →
      ∀ k, r < k → k ≤ right → ∀ x, v[k]? = some x → cmp x p = Ordering.gt := by
  intro right
  induction right with
  | zero =>
    intro r h k hk1 hk2 x hx
    have := findRight_le cmp p v 0 r h
    omega
  | succ right ih =>
    intro r h k hk1 hk2 x hx
    cases h0 : v[right + 1]? with
    | none => simp only [findRight, h0] at h; cases h
    | some a =>
      simp only [findRight, h0] at h
      split at h
      · next hcmp =>
        rcases Nat.eq_or_lt_of_le hk2 with heq | hlt
        · subst heq
          rw [h0] at hx
          cases hx
          exact hcmp
        · exact ih r h k hk1 (by omega) x hx
      · cases h; omega

theorem findRight_isSome {α : Type} (cmp : α → α → Ordering) (p : α) (v : List α) :
    ∀ right, right < v.length → v[0]? = some p → cmp p p ≠ Ordering.gt →
      ∃ r, findRight cmp p v right = some r := by
  intro right
  induction right with
  | zero =>
    intro h h0 hp
    refine ⟨0, ?_⟩
    simp only [findRight, h0, if_neg hp]
  | succ right ih =>
    intro h h0 hp
    have hlt : right + 1 < v.length := h
    cases ha : v[right + 1]? with
    | none =>
      rw [List.getElem?_eq_getElem hlt] at ha
      cases ha
    | some a =>
      by_cases hcmp : cmp a p = Ordering.gt
      · obtain ⟨r, hr⟩ := ih (by omega) h0 hp
        refine ⟨r, ?_⟩
        simp only [findRight, ha, if_pos hcmp]
        exact hr
      · refine ⟨right + 1, ?_⟩
        simp only [findRight, ha, if_neg hcmp]

/-! ### Lemmas about the outer cursor loop -/

theorem partLoop_perm {α : Type} (cmp : α → α → Ordering) :
    ∀ (fuel : Nat) (v : List α) (left right : Nat) (w : List α) (r : Nat),
      partLoop cmp fuel v left right = some (some (w, r)) →
      w.Perm v ∧ w.length = v.length := by
  intro fuel
  induction fuel with
  | zero =>
    intro v left right w r h
    simp [partLoop] at h
  | succ fuel ih =>
    intro v left right w r h
    by_cases hlr : left < right
    · cases h0 : v[0]? with
      | none =>
        simp only [partLoop, if_pos hlr, h0] at h
        simp at h
      | some p =>
        cases hfr : findRight cmp p v right with
        | none =>
          simp only [partLoop, if_pos hlr, h0, hfr] at h
          simp at h
        | some rr =>
          simp only [partLoop, if_pos hlr, h0, hfr] at h
          split at h
          · obtain ⟨hperm, hlen⟩ := ih _ _ _ _ _ h
            exact ⟨hperm.trans (listSwap_perm v _ rr),
              hlen.trans (listSwap_length v _ rr)⟩
          · simp only [Option.some.injEq, Prod.mk.injEq] at h
            obtain ⟨h1, h2⟩ := h
            subst h1
            exact ⟨List.Perm.refl v, rfl⟩
    · simp only [partLoop, if_neg hlr, Option.some.injEq, Prod.mk.injEq] at h
      obtain ⟨h1, h2⟩ := h
      subst h1
      exact ⟨List.Perm.refl v, rfl⟩

theorem partLoop_post {α : Type} (cmp : α → α → Ordering) (p : α)
    (hirr : ∀ x, cmp x x ≠ Ordering.gt) :
    ∀ (fuel : Nat) (v : List α) (left right : Nat) (w : List α) (r : Nat),
      v[0]? = some p → left < right → right < v.length →
      belowAll cmp p v left → aboveAll cmp p v right →
      partLoop cmp fuel v left right = some (some (w, r)) →
      w[0]? = some p ∧ r < w.length ∧ belowAll cmp p w r ∧
        (∀ x, w[r]? = some x → cmp x p ≠ Ordering.gt) ∧ aboveAll cmp p w r := by
  intro fuel
  induction fuel with
  | zero =>
    intro v left right w r h0 hlr hrlen hbelow habove h
    simp [partLoop] at h
  | succ fuel ih =>
    intro v left right w r h0 hlr hrlen hbelow habove h
    cases hfr : findRight cmp p v right with
    | none =>
      simp only [partLoop, if_pos hlr, h0, hfr] at h
      simp at h
    | some rr =>
      simp only [partLoop, if_pos hlr, h0, hfr] at h
      have hrr_le : rr ≤ right := findRight_le cmp p v right rr hfr
      have hrr_len : rr < v.length := findRight_lt_len cmp p v right rr hfr
      obtain ⟨xr, hxr, hxr_ngt⟩ := findRight_stop cmp p v right rr hfr
      have habove2 : aboveAll cmp p v rr := by
        intro i hi x hx
        by_cases hir : i ≤ right
        · exact findRight_above cmp p v right rr hfr i hi hir x hx
        · exact habove i (by omega) x hx
      set l := findLeft cmp p v left with hldef
      have hl_ge : left ≤ l := findLeft_ge cmp p v left
      have hl_pos : 1 ≤ l := by
        rcases Nat.eq_zero_or_pos left with h1 | h1
        · rw [hldef, h1]
          exact findLeft_pos cmp p v h0 (hirr p)
        · omega
      have hbelow_l : belowAll cmp p v l := by
        intro i hi x hx
        by_cases hil : i < left
        · exact hbelow i hil x hx
        · exact findLeft_below cmp p v v.length left (by omega) i (by omega) hi x hx
      split at h
      · next hlt =>
        have hllen : l < v.length := by omega
        have hget := listSwap_getElem? v l rr
        have hswap_len : (listSwap v l rr).length = v.length := listSwap_length v l rr
        have h0new : (listSwap v l rr)[0]? = some p := by
          rw [hget 0 hllen hrr_len, if_neg (by omega), if_neg (by omega)]
          exact h0
        have hbelow_new : belowAll cmp p (listSwap v l rr) l := by
          intro i hi x hx
          rw [hget i hllen hrr_len, if_neg (by omega), if_neg (by omega)] at hx
          exact hbelow_l i hi x hx
        have habove_new : aboveAll cmp p (listSwap v l rr) rr := by
          intro i hi x hx
          rw [hget i hllen hrr_len, if_neg (by omega), if_neg (by omega)] at hx
          exact habove2 i hi x hx
        exact ih (listSwap v l rr) l rr w r h0new hlt (by omega) hbelow_new habove_new h
      · next hge =>
        simp only [Option.some.injEq, Prod.mk.injEq] at h
        obtain ⟨h1, h2⟩ := h
        subst h1
        subst h2
        refine ⟨h0, hrr_len, ?_, ?_, habove2⟩
        · intro i hi x hx
          exact hbelow_l i (by omega) x hx
        · intro x hx
          rw [hxr] at hx
          cases hx
          exact hxr_ngt

theorem gtBit_le_one {α : Type} (cmp : α → α → Ordering) (p : α) (v : List α) (i : Nat) :
    gtBit cmp p v i ≤ 1 := by
  unfold gtBit
  cases v[i]? with
  | none => exact Nat.zero_le 1
  | some a => by_cases h : cmp a p = Ordering.gt <;> simp [h]

theorem partLoop_total {α : Type} (cmp : α → α → Ordering) (p : α)
    (hirr : ∀ x, cmp x x ≠ Ordering.gt) :
    ∀ (fuel : Nat) (v : List α) (left right : Nat),
      v[0]? = some p → left < right → right < v.length →
      2 * (right - left) + gtBit cmp p v left + 1 ≤ fuel →
      ∃ w r, partLoop cmp fuel v left right = some (some (w, r)) := by
  intro fuel
  induction fuel with
  | zero =>
    intro v left right h0 hlr hrlen hfuel
    omega
  | succ fuel ih =>
    intro v left right h0 hlr hrlen hfuel
    obtain ⟨rr, hfr⟩ := findRight_isSome cmp p v right hrlen h0 (hirr p)
    have hrr_le : rr ≤ right := findRight_le cmp p v right rr hfr
    have hrr_len : rr < v.length := findRight_lt_len cmp p v right rr hfr
    obtain ⟨xr, hxr, hxr_ngt⟩ := findRight_stop cmp p v right rr hfr
    set l := findLeft cmp p v left with hldef
    have hl_ge : left ≤ l := findLeft_ge cmp p v left
    have hl_pos : 1 ≤ l := by
      rcases Nat.eq_zero_or_pos left with h1 | h1
      · rw [hldef, h1]
        exact findLeft_pos cmp p v h0 (hirr p)
      · omega
    by_cases hlt : l < rr
    · have hllen : l < v.length := by omega
      have hget := listSwap_getElem? v l rr
      have h0new : (listSwap v l rr)[0]? = some p := by
        rw [hget 0 hllen hrr_len, if_neg (by omega), if_neg (by omega)]
        exact h0
      have hbit0 : gtBit cmp p (listSwap v l rr) l = 0 := by
        simp only [gtBit, hget l hllen hrr_len]
        rw [if_neg (Nat.ne_of_lt hlt)]
        simp [hxr, hxr_ngt]
      have hfuel2 : 2 * (rr - l) + gtBit cmp p (listSwap v l rr) l + 1 ≤ fuel := by
        by_cases hprog : rr - l < right - left
        · have hb := gtBit_le_one cmp p (listSwap v l rr) l
          omega
        · have he1 : l = left := by omega
          have he2 : rr = right := by omega
          have hvl : v[l]? = some (v.get ⟨l, hllen⟩) := List.getElem?_eq_getElem hllen
          have hstop : cmp (v.get ⟨l, hllen⟩) p = Ordering.gt := by
            refine findLeft_stop cmp p v v.length left (by omega) _ ?_
            rw [← hldef]
            exact hvl
          have hbit1 : gtBit cmp p v left = 1 := by
            rw [← he1]
            simp only [gtBit, hvl]
            rw [if_pos hstop]
          omega
      obtain ⟨w, r, hrec⟩ := ih (listSwap v l rr) l rr h0new hlt
        (by rw [listSwap_length]; omega) hfuel2
      refine ⟨w, r, ?_⟩
      simp only [partLoop, if_pos hlr, h0, hfr, ← hldef, if_pos hlt]
      exact hrec
    · refine ⟨v, rr, ?_⟩
      simp only [partLoop, if_pos hlr, h0, hfr, ← hldef, if_neg hlt]

theorem partLoop_mono {α : Type} (cmp : α → α → Ordering) :
    ∀ (fuel fuel2 : Nat) (v : List α) (left right : Nat) (x : Option (List α × Nat)),
      fuel ≤ fuel2 → partLoop cmp fuel v left right = some x →
      partLoop cmp fuel2 v left right = some x := by
  intro fuel
  induction fuel with
  | zero =>
    intro fuel2 v left right x hle h
    simp [partLoop] at h
  | succ fuel ih =>
    intro fuel2 v left right x hle h
    obtain ⟨fuel2, rfl⟩ : ∃ f, fuel2 = f + 1 := ⟨fuel2 - 1, by omega⟩
    by_cases hlr : left < right
    · cases h0 : v[0]? with
      | none =>
        simp only [partLoop, if_pos hlr, h0] at h ⊢
        exact h
      | some p =>
        cases hfr : findRight cmp p v right with
        | none =>
          simp only [partLoop, if_pos hlr, h0, hfr] at h ⊢
          exact h
        | some rr =>
          simp only [partLoop, if_pos hlr, h0, hfr] at h ⊢
          split at h
          · next hlt =>
            rw [if_pos hlt]
            exact ih fuel2 _ _ _ x (by omega) h
          · next hge =>
            rw [if_neg hge]
            exact h
    · simp only [partLoop, if_neg hlr] at h ⊢
      exact h

/-! ### Lemmas about the partition phase -/

theorem partitionStep_mono {α : Type} (cmp : α → α → Ordering) (fuel fuel2 : Nat)
    (v : List α) (x : Option (List α × Nat)) (hle : fuel ≤ fuel2)
    (h : partitionStep cmp fuel v = some x) : partitionStep cmp fuel2 v = some x := by
  unfold partitionStep at h ⊢
  cases hpl : partLoop cmp fuel (listSwap v 0 (v.length / 2)) 0 (v.length - 1) with
  | none =>
    rw [hpl] at h
    cases h
  | some y =>
    rw [hpl] at h
    rw [partLoop_mono cmp fuel fuel2 _ 0 (v.length - 1) y hle hpl]
    exact h

theorem partitionStep_perm {α : Type} (cmp : α → α → Ordering) (fuel : Nat) (v w : List α)
    (r : Nat) (h : partitionStep cmp fuel v = some (some (w, r))) :
    w.Perm v ∧ w.length = v.length := by
  unfold partitionStep at h
  cases hpl : partLoop cmp fuel (listSwap v 0 (v.length / 2)) 0 (v.length - 1) with
  | none =>
    rw [hpl] at h
    cases h
  | some y =>
    cases y with
    | none =>
      simp only [hpl] at h
      simp at h
    | some wr =>
      obtain ⟨w2, r2⟩ := wr
      simp only [hpl, Option.some.injEq, Prod.mk.injEq] at h
      obtain ⟨h1, h2⟩ := h
      subst h1
      obtain ⟨hperm, hlen⟩ := partLoop_perm cmp fuel _ 0 (v.length - 1) w2 r2 hpl
      constructor
      · exact (listSwap_perm w2 0 r2).trans (hperm.trans (listSwap_perm v 0 (v.length / 2)))
      · rw [listSwap_length, hlen, listSwap_length]

theorem partitionStep_post {α : Type} (cmp : α → α → Ordering)
    (hirr : ∀ x, cmp x x ≠ Ordering.gt) (fuel : Nat) (v w : List α) (r : Nat)
    (hlen : 2 ≤ v.length) (h : partitionStep cmp fuel v = some (some (w, r))) :
    ∃ pv, r < w.length ∧ w[r]? = some pv ∧
      (∀ i, i < r → ∀ x, w[i]? = some x → cmp x pv ≠ Ordering.gt) ∧
      (∀ i, r < i → ∀ x, w[i]? = some x → cmp x pv = Ordering.gt) := by
  unfold partitionStep at h
  cases hpl : partLoop cmp fuel (listSwap v 0 (v.length / 2)) 0 (v.length - 1) with
  | none =>
    rw [hpl] at h
    cases h
  | some y =>
    cases y with
    | none =>
      simp only [hpl] at h
      simp at h
    | some wr =>
      obtain ⟨w2, r2⟩ := wr
      simp only [hpl, Option.some.injEq, Prod.mk.injEq] at h
      obtain ⟨h1, h2⟩ := h
      subst h1
      subst h2
      obtain ⟨-, hlen2⟩ := partLoop_perm cmp fuel _ 0 (v.length - 1) w2 r2 hpl
      have hv1len : (listSwap v 0 (v.length / 2)).length = v.length :=
        listSwap_length v 0 (v.length / 2)
      have h0len : 0 < (listSwap v 0 (v.length / 2)).length := by omega
      have hp0 : (listSwap v 0 (v.length / 2))[0]? =
          some ((listSwap v 0 (v.length / 2)).get ⟨0, h0len⟩) := List.getElem?_eq_getElem h0len
      obtain ⟨hw20, hr2len, hbelow, hstop, habove⟩ :=
        partLoop_post cmp _ hirr fuel _ 0 (v.length - 1) w2 r2 hp0 (by omega) (by omega)
          (by intro i hi x hx; omega)
          (by
            intro i hi x hx
            rw [List.getElem?_eq_none (by omega)] at hx
            cases hx)
          hpl
      have h0w2 : 0 < w2.length := by omega
      have hget := listSwap_getElem? w2 0 r2
      refine ⟨(listSwap v 0 (v.length / 2)).get ⟨0, h0len⟩, ?_, ?_, ?_, ?_⟩
      · rw [listSwap_length]
        exact hr2len
      · rw [hget r2 h0w2 hr2len, if_pos rfl]
        exact hw20
      · intro i hi x hx
        rw [hget i h0w2 hr2len, if_neg (by omega)] at hx
        by_cases hi0 : i = 0
        · rw [if_pos hi0] at hx
          obtain ⟨xr, hxr, hxr_ngt⟩ : ∃ xr, w2[r2]? = some xr ∧ cmp xr _ ≠ Ordering.gt :=
            ⟨w2.get ⟨r2, hr2len⟩, List.getElem?_eq_getElem hr2len,
              hstop _ (List.getElem?_eq_getElem hr2len)⟩
          rw [hxr] at hx
          cases hx
          exact hxr_ngt
        · rw [if_neg hi0] at hx
          exact hbelow i hi x hx
      · intro i hi x hx
        rw [hget i h0w2 hr2len, if_neg (by omega), if_neg (by omega)] at hx
        exact habove i hi x hx

theorem partitionStep_total {α : Type} (cmp : α → α → Ordering)
    (hirr : ∀ x, cmp x x ≠ Ordering.gt) (fuel : Nat) (v : List α)
    (hlen : 2 ≤ v.length) (hfuel : 2 * v.length ≤ fuel) :
    ∃ w r, partitionStep cmp fuel v = some (some (w, r)) := by
  have hv1len : (listSwap v 0 (v.length / 2)).length = v.length :=
    listSwap_length v 0 (v.length / 2)
  have h0 : 0 < (listSwap v 0 (v.length / 2)).length := by omega
  have hp : (listSwap v 0 (v.length / 2))[0]? =
      some ((listSwap v 0 (v.length / 2)).get ⟨0, h0⟩) := List.getElem?_eq_getElem h0
  have hbit := gtBit_le_one cmp ((listSwap v 0 (v.length / 2)).get ⟨0, h0⟩)
    (listSwap v 0 (v.length / 2)) 0
  obtain ⟨w, r, hpl⟩ := partLoop_total cmp _ hirr fuel _ 0 (v.length - 1) hp
    (by omega) (by omega) (by omega)
  refine ⟨listSwap w 0 r, r, ?_⟩
  unfold partitionStep
  rw [hpl]

/-! ### Lemmas about the whole sort -/

theorem take_one_decompose {α : Type} (w : List α) (r : Nat) :
    w.take r ++ (w.drop r).take 1 ++ w.drop (r + 1) = w := by
  have h1 : w.drop (r + 1) = (w.drop r).drop 1 := by
    rw [List.drop_drop]
  rw [h1, List.append_assoc, List.take_append_drop, List.take_append_drop]

theorem oriented_irrefl {α : Type} (cmp : α → α → Ordering) (hor : Oriented cmp) (x : α) :
    cmp x x ≠ Ordering.gt := by
  intro hgt
  have h2 := hor x x
  rw [hgt] at h2
  simp [Ordering.swap] at h2

theorem mem_take_below {α : Type} (cmp : α → α → Ordering) (pv : α) (w : List α) (r : Nat)
    (hb : ∀ i, i < r → ∀ x, w[i]? = some x → cmp x pv ≠ Ordering.gt) :
    ∀ x, x ∈ w.take r → cmp x pv ≠ Ordering.gt := by
  intro x hx
  obtain ⟨i, hi, hget⟩ := List.getElem_of_mem hx
  have hir : i < r := by
    have := List.length_take r w
    omega
  have hw : w[i]? = some x := by
    rw [← List.getElem?_take_of_lt hir, List.getElem?_eq_getElem hi, hget]
  exact hb i hir x hw

theorem mem_drop_above {α : Type} (cmp : α → α → Ordering) (pv : α) (w : List α) (r : Nat)
    (ha : ∀ i, r < i → ∀ x, w[i]? = some x → cmp x pv = Ordering.gt) :
    ∀ x, x ∈ w.drop (r + 1) → cmp x pv = Ordering.gt := by
  intro x hx
  obtain ⟨i, hi, hget⟩ := List.getElem_of_mem hx
  have hw : w[r + 1 + i]? = some x := by
    rw [← List.getElem?_drop, List.getElem?_eq_getElem hi, hget]
  exact ha (r + 1 + i) (by omega) x hw

theorem quicksortBy_perm {α : Type} (cmp : α → α → Ordering) :
    ∀ (fuel : Nat) (v w : List α), quicksortBy cmp fuel v = some (some w) → w.Perm v := by
  intro fuel
  induction fuel with
  | zero =>
    intro v w h
    simp [quicksortBy] at h
  | succ fuel ih =>
    intro v w h
    by_cases hlen : v.length ≤ 1
    · simp only [quicksortBy, if_pos hlen, Option.some.injEq] at h
      subst h
      exact List.Perm.refl v
    · simp only [quicksortBy, if_neg hlen] at h
      cases hps : partitionStep cmp fuel v with
      | none =>
        rw [hps] at h
        cases h
      | some y =>
        cases y with
        | none =>
          simp only [hps] at h
          cases h
        | some wr =>
          obtain ⟨w1, r⟩ := wr
          simp only [hps] at h
          cases hL : quicksortBy cmp fuel (w1.take r) with
          | none =>
            rw [hL] at h
            cases h
          | some yL =>
            cases yL with
            | none =>
              simp only [hL] at h
              cases h
            | some sL =>
              simp only [hL] at h
              cases hR : quicksortBy cmp fuel (w1.drop (r + 1)) with
              | none =>
                rw [hR] at h
                cases h
              | some yR =>
                cases yR with
                | none =>
                  simp only [hR] at h
                  cases h
                | some sR =>
                  simp only [hR, Option.some.injEq] at h
                  subst h
                  have hpL := ih (w1.take r) sL hL
                  have hpR := ih (w1.drop (r + 1)) sR hR
                  have hperm1 :=
                    (hpL.append (List.Perm.refl ((w1.drop r).take 1))).append hpR
                  rw [take_one_decompose w1 r] at hperm1
                  exact hperm1.trans (partitionStep_perm cmp fuel v w1 r hps).1

theorem quicksortBy_total {α : Type} (cmp : α → α → Ordering)
    (hirr : ∀ x, cmp x x ≠ Ordering.gt) :
    ∀ (fuel : Nat) (v : List α), 3 * v.length + 1 ≤ fuel →
      ∃ w, quicksortBy cmp fuel v = some (some w) := by
  intro fuel
  induction fuel with
  | zero =>
    intro v h
    omega
  | succ fuel ih =>
    intro v hfuel
    by_cases hlen : v.length ≤ 1
    · exact ⟨v, by simp [quicksortBy, if_pos hlen]⟩
    · obtain ⟨w1, r, hps⟩ := partitionStep_total cmp hirr fuel v (by omega) (by omega)
      obtain ⟨hperm, hwlen⟩ := partitionStep_perm cmp fuel v w1 r hps
      obtain ⟨pv, hrlen, -, -, -⟩ := partitionStep_post cmp hirr fuel v w1 r (by omega) hps
      have htake : (w1.take r).length = r := by
        rw [List.length_take]
        omega
      have hdrop : (w1.drop (r + 1)).length = w1.length - (r + 1) := List.length_drop _ _
      obtain ⟨sL, hL⟩ := ih (w1.take r) (by omega)
      obtain ⟨sR, hR⟩ := ih (w1.drop (r + 1)) (by omega)
      refine ⟨sL ++ (w1.drop r).take 1 ++ sR, ?_⟩
      simp only [quicksortBy, if_neg hlen, hps, hL, hR]

theorem quicksortBy_mono {α : Type} (cmp : α → α → Ordering) :
    ∀ (fuel fuel2 : Nat) (v : List α) (x : Option (List α)),
      fuel ≤ fuel2 → quicksortBy cmp fuel v = some x → quicksortBy cmp fuel2 v = some x := by
  intro fuel
  induction fuel with
  | zero =>
    intro fuel2 v x hle h
    simp [quicksortBy] at h
  | succ fuel ih =>
    intro fuel2 v x hle h
    obtain ⟨fuel2, rfl⟩ : ∃ f, fuel2 = f + 1 := ⟨fuel2 - 1, by omega⟩
    have hle2 : fuel ≤ fuel2 := by omega
    by_cases hlen : v.length ≤ 1
    · simp only [quicksortBy, if_pos hlen] at h ⊢
      exact h
    · simp only [quicksortBy, if_neg hlen] at h ⊢
      cases hps : partitionStep cmp fuel v with
      | none =>
        rw [hps] at h
        cases h
      | some y =>
        have hps2 := partitionStep_mono cmp fuel fuel2 v y hle2 hps
        rw [hps2]
        cases y with
        | none =>
          simp only [hps] at h
          exact h
        | some wr =>
          obtain ⟨w1, r⟩ := wr
          simp only [hps] at h
          simp only []
          cases hL : quicksortBy cmp fuel (w1.take r) with
          | none =>
            rw [hL] at h
            cases h
          | some yL =>
            have hL2 := ih fuel2 (w1.take r) yL hle2 hL
            rw [hL2]
            cases yL with
            | none =>
              simp only [hL] at h
              exact h
            | some sL =>
              simp only [hL] at h
              simp only []
              cases hR : quicksortBy cmp fuel (w1.drop (r + 1)) with
              | none =>
                rw [hR] at h
                cases h
              | some yR =>
                have hR2 := ih fuel2 (w1.drop (r + 1)) yR hle2 hR
                rw [hR2]
                cases yR with
                | none =>
                  simp only [hR] at h
                  exact h
                | some sR =>
                  simp only [hR] at h
                  exact h

theorem quicksortBy_sorted {α : Type} (cmp : α → α → Ordering) (hswo : SWOrder cmp) :
    ∀ (fuel : Nat) (v w : List α), quicksortBy cmp fuel v = some (some w) →
      List.Chain' (fun a b => cmp a b ≠ Ordering.gt) w := by
  obtain ⟨hor, htr⟩ := hswo
  have hirr : ∀ x, cmp x x ≠ Ordering.gt := oriented_irrefl cmp hor
  intro fuel
  induction fuel with
  | zero =>
    intro v w h
    simp [quicksortBy] at h
  | succ fuel ih =>
    intro v w h
    by_cases hlen : v.length ≤ 1
    · simp only [quicksortBy, if_pos hlen, Option.some.injEq] at h
      subst h
      cases v with
      | nil => exact List.chain'_nil
      | cons a t =>
        cases t with
        | nil => exact List.chain'_singleton a
        | cons b t2 => simp at hlen
    · simp only [quicksortBy, if_neg hlen] at h
      cases hps : partitionStep cmp fuel v with
      | none =>
        rw [hps] at h
        cases h
      | some y =>
        cases y with
        | none =>
          simp only [hps] at h
          cases h
        | some wr =>
          obtain ⟨w1, r⟩ := wr
          simp only [hps] at h
          cases hL : quicksortBy cmp fuel (w1.take r) with
          | none =>
            rw [hL] at h
            cases h
          | some yL =>
            cases yL with
            | none =>
              simp only [hL] at h
              cases h
            | some sL =>
              simp only [hL] at h
              cases hR : quicksortBy cmp fuel (w1.drop (r + 1)) with
              | none =>
                rw [hR] at h
                cases h
              | some yR =>
                cases yR with
                | none =>
                  simp only [hR] at h
                  cases h
                | some sR =>
                  simp only [hR, Option.some.injEq] at h
                  subst h
                  obtain ⟨pv, hrlen, hpv, hbelow, habove⟩ :=
                    partitionStep_post cmp hirr fuel v w1 r (by omega) hps
                  have hmid : (w1.drop r).take 1 = [pv] := by
                    rw [List.getElem?_eq_getElem hrlen] at hpv
                    cases hpv
                    rw [List.drop_eq_getElem_cons hrlen]
                    rfl
                  have hchainL := ih (w1.take r) sL hL
                  have hchainR := ih (w1.drop (r + 1)) sR hR
                  have hpermL := quicksortBy_perm cmp fuel (w1.take r) sL hL
                  have hpermR := quicksortBy_perm cmp fuel (w1.drop (r + 1)) sR hR
                  have hmemL : ∀ x ∈ sL, cmp x pv ≠ Ordering.gt := fun x hx =>
                    mem_take_below cmp pv w1 r hbelow x (hpermL.mem_iff.mp hx)
                  have hmemR : ∀ x ∈ sR, cmp pv x ≠ Ordering.gt := by
                    intro x hx
                    have hgt := mem_drop_above cmp pv w1 r habove x (hpermR.mem_iff.mp hx)
                    rw [hor pv x, hgt]
                    simp [Ordering.swap]
                  rw [hmid, List.append_assoc]
                  refine List.Chain'.append hchainL ?_ ?_
                  · rw [List.singleton_append]
                    exact List.chain'_cons'.mpr
                      ⟨fun y hy => hmemR y (List.mem_of_mem_head? hy), hchainR⟩
                  · intro x hx y hy
                    rw [List.singleton_append, List.head?_cons] at hy
                    have hy2 : y = pv := by
                      cases hy
                      rfl
                    subst hy2
                    exact hmemL x (List.mem_of_mem_getLast? hx)

/-! ### Concrete comparators used as instances -/

theorem natCompare_swo : SWOrder (fun x y : Nat => compare x y) := by
  constructor
  · intro x y
    exact (Nat.compare_swap y x).symm
  · intro x y z h1 h2
    exact Nat.compare_ne_gt.mpr
      (Nat.le_trans (Nat.compare_ne_gt.mp h1) (Nat.compare_ne_gt.mp h2))

theorem constEq_swo : SWOrder (fun _ _ : Nat => Ordering.eq) :=
  ⟨fun _ _ => rfl, fun _ _ _ _ _ h => Ordering.noConfusion h⟩

/-! ### The claims -/

/-- C1: for every comparator that is a strict weak ordering, whenever
`quicksort_by` returns, every adjacent pair of the resulting slice does not
compare Greater, i.e. the slice is in non-decreasing order under the
comparator.  `quicksort` is the `cmp = compare` instance of this statement
(they are definitionally equal, see the C9 theorem). -/
theorem quicksortBy_sorts {α : Type} (cmp : α → α → Ordering) (fuel : Nat) (v w : List α)
    (hswo : SWOrder cmp) (h : quicksortBy cmp fuel v = some (some w)) :
    List.Chain' (fun a b => cmp a b ≠ Ordering.gt) w :=
  quicksortBy_sorted cmp hswo fuel v w h

/-- Witness for C1: the constant-Equal comparator is a strict weak ordering
and a completed run on `[5, 7]` exists. -/
theorem quicksortBy_sorts_witness :
    List.Chain' (fun a b : Nat => (fun _ _ : Nat => Ordering.eq) a b ≠ Ordering.gt) [5, 7] :=
  quicksortBy_sorts (fun _ _ : Nat => Ordering.eq) 7 [5, 7] [5, 7] constEq_swo (by decide)

/-- C2: for every comparator (lawful or not), whenever `quicksort_by`
returns, the resulting slice is a permutation of the input slice. -/
theorem quicksortBy_output_perm {α : Type} (cmp : α → α → Ordering) (fuel : Nat)
    (v w : List α) (h : quicksortBy cmp fuel v = some (some w)) : w.Perm v :=
  quicksortBy_perm cmp fuel v w h

/-- Witness for C2 at the constant-Less comparator on `[1, 2]`. -/
theorem quicksortBy_output_perm_witness : ([1, 2] : List Nat).Perm [1, 2] :=
  quicksortBy_output_perm (fun _ _ : Nat => Ordering.lt) 7 [1, 2] [1, 2] (by decide)

/-- C3 counterexample: under the natural order on `Nat` (a strict weak
ordering) on the slice `[2, 2]` of length 2, the partition phase returns
the pivot index `p = 1`, but the element at index `0 < p` compares Equal —
not Less — to the pivot, refuting "every element at an index less than `p`
compares Less than the pivot". -/
theorem partition_less_counterexample :
    partitionStep (fun x y : Nat => compare x y) 6 [2, 2] = some (some ([2, 2], 1)) ∧
      compare 2 2 ≠ Ordering.lt := by
  constructor
  · decide
  · decide

/-- C3 (amended): after the partition phase, every element at an index less
than `p` compares less-than-or-Equal (never Greater) to the pivot value held
at index `p`, and every element at an index greater than `p` compares
greater-than-or-equal (never Less, in fact Greater) to it. -/
theorem partition_postcondition {α : Type} (cmp : α → α → Ordering) (fuel : Nat)
    (v w : List α) (r : Nat) (hswo : SWOrder cmp) (hlen : 2 ≤ v.length)
    (h : partitionStep cmp fuel v = some (some (w, r))) :
    ∃ pv, w[r]? = some pv ∧
      (∀ i x, i < r → w[i]? = some x → cmp x pv ≠ Ordering.gt) ∧
      (∀ i x, r < i → w[i]? = some x → cmp x pv ≠ Ordering.lt) := by
  obtain ⟨pv, hrlen, hpv, hb, ha⟩ :=
    partitionStep_post cmp (oriented_irrefl cmp hswo.1) fuel v w r hlen h
  refine ⟨pv, hpv, fun i x hi hx => hb i hi x hx, fun i x hi hx => ?_⟩
  rw [ha i hi x hx]
  simp

/-- Witness for C3 (amended) at the natural order on `[3, 1]`, where the
partition phase returns `([1, 3], 0)`. -/
theorem partition_postcondition_witness :
    ∃ pv, ([1, 3] : List Nat)[0]? = some pv ∧
      (∀ i x, i < 0 → ([1, 3] : List Nat)[i]? = some x →
        (fun x y : Nat => compare x y) x pv ≠ Ordering.gt) ∧
      (∀ i x, 0 < i → ([1, 3] : List Nat)[i]? = some x →
        (fun x y : Nat => compare x y) x pv ≠ Ordering.lt) :=
  partition_postcondition (fun x y : Nat => compare x y) 6 [3, 1] [1, 3] 0
    natCompare_swo (by decide) (by decide)

/-- C4 counterexample: the comparator that always answers Greater violates
strict weak ordering, and on the slice `[0, 1]` the right-cursor loop
`while cmp(&vec[right], &vec[pivot]) == Greater { right -= 1 }` decrements
`right : usize` below zero: the run panics (`some none`) instead of
returning a permuted slice, refuting "does not crash". -/
theorem no_crash_counterexample :
    quicksortBy (fun _ _ : Nat => Ordering.gt) 5 [0, 1] = some none := by decide

/-- C4 (amended): if the comparator never answers Greater on identical
arguments (true of every strict weak ordering, but weaker), `quicksort_by`
neither crashes nor loops: with fuel `3·len + 1` the run returns normally
and the resulting slice is a permutation of the input.  A comparator
violating irreflexivity can make the code underflow `usize` (see the
counterexample) or loop forever. -/
theorem no_crash_of_irrefl {α : Type} (cmp : α → α → Ordering) (v : List α)
    (hirr : ∀ x, cmp x x ≠ Ordering.gt) :
    ∃ w, quicksortBy cmp (3 * v.length + 1) v = some (some w) ∧ w.Perm v := by
  obtain ⟨w, hw⟩ := quicksortBy_total cmp hirr (3 * v.length + 1) v (Nat.le_refl _)
  exact ⟨w, hw, quicksortBy_perm cmp _ v w hw⟩

/-- Witness for C4 (amended) at the constant-Less comparator on `[9, 3]`. -/
theorem no_crash_of_irrefl_witness :
    ∃ w, quicksortBy (fun _ _ : Nat => Ordering.lt) (3 * ([9, 3] : List Nat).length + 1)
      [9, 3] = some (some w) ∧ w.Perm [9, 3] :=
  no_crash_of_irrefl (fun _ _ : Nat => Ordering.lt) [9, 3]
    (fun _ h => Ordering.noConfusion h)

/-- C5: for every slice and every strict-weak-ordering comparator the call
terminates: fuel `3·len + 1` always suffices for the modelled run to return
(each cursor loop exits, and every recursive call is on a strictly shorter
sub-slice, which is what the fuel bound encodes). -/
theorem quicksortBy_terminates {α : Type} (cmp : α → α → Ordering) (v : List α)
    (hswo : SWOrder cmp) :
    ∃ w, quicksortBy cmp (3 * v.length + 1) v = some (some w) :=
  quicksortBy_total cmp (oriented_irrefl cmp hswo.1) _ v (Nat.le_refl _)

/-- Witness for C5 at the constant-Equal comparator on `[4, 6, 2]`. -/
theorem quicksortBy_terminates_witness :
    ∃ w, quicksortBy (fun _ _ : Nat => Ordering.eq)
      (3 * ([4, 6, 2] : List Nat).length + 1) [4, 6, 2] = some (some w) :=
  quicksortBy_terminates (fun _ _ : Nat => Ordering.eq) [4, 6, 2] constEq_swo

/-- C6 counterexample: the constant-Equal comparator is a strict weak
ordering, `[0, 1, 2]` is sorted under it (no adjacent pair compares
Greater), yet `quicksort_by` returns `[2, 0, 1]`, not the input unchanged:
elements equivalent under the comparator are permuted. -/
theorem idempotence_counterexample :
    SWOrder (fun _ _ : Nat => Ordering.eq) ∧
      List.Chain' (fun a b : Nat => (fun _ _ : Nat => Ordering.eq) a b ≠ Ordering.gt)
        [0, 1, 2] ∧
      quicksortBy (fun _ _ : Nat => Ordering.eq) 10 [0, 1, 2] = some (some [2, 0, 1]) ∧
      ([2, 0, 1] : List Nat) ≠ [0, 1, 2] := by
  refine ⟨constEq_swo, ?_, by decide, by decide⟩
  exact List.chain'_cons.mpr ⟨by decide, List.chain'_cons.mpr
    ⟨by decide, List.chain'_singleton 2⟩⟩

/-- C6 (amended): when the strict-weak-ordering comparator is moreover
antisymmetric (`cmp x y = Equal → x = y`, e.g. the natural order on
integers), sorting a slice that is already sorted under it returns the
slice exactly unchanged. -/
theorem sorted_input_unchanged {α : Type} (cmp : α → α → Ordering) (fuel : Nat)
    (v w : List α) (hswo : SWOrder cmp) (hanti : ∀ x y, cmp x y = Ordering.eq → x = y)
    (hsorted : List.Chain' (fun a b => cmp a b ≠ Ordering.gt) v)
    (h : quicksortBy cmp fuel v = some (some w)) : w = v := by
  have hperm := quicksortBy_perm cmp fuel v w h
  have hchain := quicksortBy_sorted cmp hswo fuel v w h
  letI : IsTrans α (fun a b => cmp a b ≠ Ordering.gt) :=
    ⟨fun a b c h1 h2 => hswo.2 a b c h1 h2⟩
  letI : IsAntisymm α (fun a b => cmp a b ≠ Ordering.gt) := by
    constructor
    intro a b h1 h2
    apply hanti a b
    have ho := hswo.1 a b
    cases hba : cmp b a with
    | lt =>
      rw [hba] at ho
      simp [Ordering.swap] at ho
      exact absurd ho h1
    | eq =>
      rw [hba] at ho
      simpa [Ordering.swap] using ho
    | gt => exact absurd hba h2
  exact List.eq_of_perm_of_sorted hperm
    (List.chain'_iff_pairwise.mp hchain) (List.chain'_iff_pairwise.mp hsorted)

/-- Witness for C6 (amended) at the natural order on the sorted slice
`[1, 2]`. -/
theorem sorted_input_unchanged_witness : ([1, 2] : List Nat) = [1, 2] :=
  sorted_input_unchanged (fun x y : Nat => compare x y) 7 [1, 2] [1, 2]
    natCompare_swo (fun x y hxy => Nat.compare_eq_eq.mp hxy)
    (List.chain'_cons.mpr ⟨by decide, List.chain'_singleton 2⟩) (by decide)

/-- C7: a slice of length 0 or 1 is returned immediately and unchanged, for
any comparator whatsoever (the comparator is never consulted: the result
does not depend on it). -/
theorem base_case_unchanged {α : Type} (cmp : α → α → Ordering) (fuel : Nat) (v : List α)
    (hlen : v.length ≤ 1) : quicksortBy cmp (fuel + 1) v = some (some v) := by
  simp [quicksortBy, if_pos hlen]

/-- Witness for C7: even the crashing always-Greater comparator returns a
singleton unchanged. -/
theorem base_case_unchanged_witness :
    quicksortBy (fun _ _ : Nat => Ordering.gt) 1 [42] = some (some [42]) :=
  base_case_unchanged (fun _ _ : Nat => Ordering.gt) 0 [42] (by decide)

/-- C8: `quicksort` on `[3,1,4,1,5,9,2,6,5,3]` under the natural order on
naturals yields exactly `[1,1,2,3,3,4,5,5,6,9]` (the run completes within
fuel `3·10 + 1`). -/
theorem quicksort_example :
    quicksort 31 ([3, 1, 4, 1, 5, 9, 2, 6, 5, 3] : List Nat) =
      some (some [1, 1, 2, 3, 3, 4, 5, 5, 6, 9]) := by decide

/-- C9: `quicksort` delegates to `quicksort_by` with the element type's
natural three-way comparison; the two entry points are extensionally equal
on every slice and every fuel. -/
theorem quicksort_eq_quicksortBy_compare {α : Type} [Ord α] (fuel : Nat) (v : List α) :
    quicksort fuel v = quicksortBy (fun x y => compare x y) fuel v := rfl

/-- C10: `quicksort_by` is deterministic — any two completed runs on the
same slice with the same (pure) comparator return the same slice, whatever
fuel each run was given; the output, including the placement of
Equal-comparing elements, is a function of the input alone. -/
theorem quicksortBy_deterministic {α : Type} (cmp : α → α → Ordering)
    (fuel1 fuel2 : Nat) (v w1 w2 : List α)
    (h1 : quicksortBy cmp fuel1 v = some (some w1))
    (h2 : quicksortBy cmp fuel2 v = some (some w2)) : w1 = w2 := by
  rcases Nat.le_total fuel1 fuel2 with hle | hle
  · have h3 := quicksortBy_mono cmp fuel1 fuel2 v (some w1) hle h1
    rw [h3] at h2
    simpa using h2
  · have h3 := quicksortBy_mono cmp fuel2 fuel1 v (some w2) hle h2
    rw [h3] at h1
    simpa using h1.symm

/-- Witness for C10: two runs with different fuel on `[2, 1]` agree. -/
theorem quicksortBy_deterministic_witness : ([1, 2] : List Nat) = [1, 2] :=
  quicksortBy_deterministic (fun x y : Nat => compare x y) 7 9 [2, 1] [1, 2] [1, 2]
    (by decide) (by decide)

end Ironsort
